import Mathlib

/-!
# Verification of the el-bayan RAG core

A shallow embedding, in Lean 4, of the retrieval-augmented-generation core of
the el-bayan repository: the text chunker (`rag_system/chunking/text_chunker.py`),
the FAISS-backed vector store (`rag_system/vector_store/faiss_store.py`), the
retrieval engine (`rag_system/retrieval/retriever.py`), the generation client
(`rag_system/llm/gemini_llm.py`) and the pipeline orchestrator
(`rag_system/pipeline/rag_pipeline.py`).

Python strings are modelled as `List Char`; Python dicts as insertion-ordered
association lists; floating-point scores as `ℚ`.  External collaborators that
the repository itself treats as black boxes (the Unicode NFKC table lookup of
`unicodedata.normalize`, FAISS's `normalize_L2`, the embedding model, the HTTP
transport, float formatting) enter as explicit function parameters.
-/

namespace ElBayan

/-! ## Python string primitives

`isPyWs` is the set of characters Python's `str.strip` / `str.isspace` and the
Unicode-aware regex class `\s` treat as whitespace. -/

/-- Characters Python treats as whitespace (`str.isspace`). -/
def isPyWs (c : Char) : Bool :=
  c = ' ' || c = '\t' || c = '\n' || c = '\r' ||
  c.toNat = 0x0b || c.toNat = 0x0c ||
  (0x1c ≤ c.toNat && c.toNat ≤ 0x1f) ||
  c.toNat = 0x85 || c.toNat = 0xa0 || c.toNat = 0x1680 ||
  (0x2000 ≤ c.toNat && c.toNat ≤ 0x200a) ||
  c.toNat = 0x2028 || c.toNat = 0x2029 || c.toNat = 0x202f ||
  c.toNat = 0x205f || c.toNat = 0x3000

/-- Python `str.lstrip()`: drop the maximal whitespace prefix. -/
def stripLeft (l : List Char) : List Char := l.dropWhile isPyWs

/-- Python `str.rstrip()`: drop the maximal whitespace suffix. -/
def stripRight : List Char → List Char
  | [] => []
  | c :: t =>
    let r := stripRight t
    if r = [] ∧ isPyWs c then [] else c :: r

/-- Python `str.strip()`: drop whitespace from both ends. -/
def pyStrip (l : List Char) : List Char := stripRight (stripLeft l)

/-- Python `re.sub(r' +', ' ', s)`: collapse every run of ASCII spaces to one space. -/
def collapseSpaces : List Char → List Char
  | [] => []
  | [c] => [c]
  | a :: b :: t =>
    if a = ' ' ∧ b = ' ' then collapseSpaces (b :: t)
    else a :: collapseSpaces (b :: t)

/-- No two adjacent ASCII spaces. -/
def noDbl : List Char → Prop
  | [] => True
  | [_] => True
  | a :: b :: t => ¬(a = ' ' ∧ b = ' ') ∧ noDbl (b :: t)

theorem noDbl_tail : ∀ {a : Char} {t : List Char}, noDbl (a :: t) → noDbl t
  | _, [], _ => trivial
  | _, _ :: _, h => h.2

/-- Collapsing keeps the head character (a collapsed space run still begins
with a space). -/
theorem collapseSpaces_head : ∀ (b : Char) (t : List Char),
    (collapseSpaces (b :: t)).head? = some b
  | b, [] => rfl
  | b, c :: cs => by
    by_cases h : b = ' ' ∧ c = ' '
    · obtain ⟨hb, hc⟩ := h
      subst hb; subst hc
      simpa [collapseSpaces] using collapseSpaces_head ' ' cs
    · simp [collapseSpaces, h]

theorem noDbl_collapseSpaces : ∀ l : List Char, noDbl (collapseSpaces l)
  | [] => trivial
  | [c] => trivial
  | a :: b :: t => by
    by_cases h : a = ' ' ∧ b = ' '
    · simpa [collapseSpaces, h] using noDbl_collapseSpaces (b :: t)
    · simp only [collapseSpaces, h, if_false]
      have ih := noDbl_collapseSpaces (b :: t)
      have hd := collapseSpaces_head b t
      cases hc : collapseSpaces (b :: t) with
      | nil => trivial
      | cons x xs =>
        rw [hc] at hd
        have hx : x = b := by simpa using hd
        exact ⟨fun hsp => h ⟨hsp.1, hx ▸ hsp.2⟩, by rw [hc] at ih; exact ih⟩

/-! ### Basic facts about the strip / collapse primitives -/

theorem length_dropWhile_le (p : Char → Bool) :
    ∀ l : List Char, (l.dropWhile p).length ≤ l.length
  | [] => le_refl 0
  | c :: t => by
    rw [List.dropWhile_cons]
    by_cases h : p c = true
    · simp only [h, if_true]
      exact (length_dropWhile_le p t).trans (Nat.le_succ _)
    · simp [h]

theorem stripRight_length_le : ∀ l : List Char, (stripRight l).length ≤ l.length
  | [] => le_refl 0
  | c :: t => by
    unfold stripRight
    by_cases h : stripRight t = [] ∧ isPyWs c
    · simp [h]
    · simpa [h] using stripRight_length_le t

theorem pyStrip_length_le (l : List Char) : (pyStrip l).length ≤ l.length :=
  (stripRight_length_le _).trans (length_dropWhile_le _ l)

/-- A nonempty `stripRight` result keeps the head of its input. -/
theorem stripRight_head? : ∀ l : List Char,
    stripRight l = [] ∨ (stripRight l).head? = l.head?
  | [] => Or.inl rfl
  | c :: t => by
    unfold stripRight
    by_cases h : stripRight t = [] ∧ isPyWs c
    · simp [h]
    · simp [h]

/-- The last character surviving `stripRight` is not whitespace. -/
theorem stripRight_getLast? : ∀ (l : List Char) (x : Char),
    (stripRight l).getLast? = some x → isPyWs x = false
  | [], x => by intro h; simp [stripRight] at h
  | c :: t, x => by
    show ((if stripRight t = [] ∧ isPyWs c then [] else c :: stripRight t).getLast? =
        some x) → _
    by_cases h : stripRight t = [] ∧ isPyWs c
    · intro hx; simp [h] at hx
    · simp only [h, if_false]
      cases hr : stripRight t with
      | nil =>
        intro hx
        have hc : c = x := by simpa using hx
        subst hc
        rcases Bool.eq_false_or_eq_true (isPyWs c) with hb | hb
        · exact absurd ⟨hr, hb⟩ h
        · exact hb
      | cons y ys =>
        intro hx
        refine stripRight_getLast? t x ?_
        rw [hr]
        rwa [List.getLast?_cons_cons] at hx

/-- Applying `stripRight` to a list whose last character is not
whitespace is the identity. -/
theorem stripRight_eq_self : ∀ l : List Char,
    (∀ x, l.getLast? = some x → isPyWs x = false) → stripRight l = l
  | [], _ => rfl
  | c :: t, h => by
    show (if stripRight t = [] ∧ isPyWs c then [] else c :: stripRight t) = c :: t
    cases ht : t with
    | nil =>
      subst ht
      have hc := h c (by simp)
      simp [stripRight, hc]
    | cons b bs =>
      have hrec : stripRight t = t := by
        refine stripRight_eq_self t fun x hx => h x ?_
        rw [ht] at hx ⊢
        rw [List.getLast?_cons_cons]
        exact hx
      rw [ht] at hrec
      subst ht
      simp [hrec]

/-- Applying `stripRight` to a list ending in whitespace strictly shortens it. -/
theorem stripRight_length_lt : ∀ (l : List Char) (x : Char),
    l.getLast? = some x → isPyWs x = true → (stripRight l).length + 1 ≤ l.length
  | [], x => by intro h _; simp at h
  | c :: t, x => by
    intro hlast hws
    show (if stripRight t = [] ∧ isPyWs c then [] else c :: stripRight t).length + 1 ≤ _
    cases ht : t with
    | nil =>
      have hc : c = x := by rw [ht] at hlast; simpa using hlast
      subst hc
      subst ht
      simp [stripRight, hws]
    | cons b bs =>
      have hlt : (stripRight t).length + 1 ≤ t.length := by
        refine stripRight_length_lt t x ?_ hws
        rw [ht] at hlast ⊢
        rwa [List.getLast?_cons_cons] at hlast
      subst ht
      by_cases h : stripRight (b :: bs) = [] ∧ isPyWs c
      · simp only [h, and_self, if_true, List.length_nil, List.length_cons]
        omega
      · simp only [h, if_false, List.length_cons]
        simp only [List.length_cons] at hlt
        omega

/-- A nonempty `dropWhile` result keeps the last element of its input. -/
theorem dropWhile_getLast? (p : Char → Bool) : ∀ l : List Char,
    l.dropWhile p = [] ∨ (l.dropWhile p).getLast? = l.getLast?
  | [] => Or.inl rfl
  | c :: t => by
    rw [List.dropWhile_cons]
    by_cases h : p c = true
    · simp only [h, if_true]
      rcases dropWhile_getLast? p t with ht | ht
      · exact Or.inl ht
      · cases t with
        | nil => exact Or.inl rfl
        | cons b bs =>
          right
          rw [ht, List.getLast?_cons_cons]
    · simp [h]

theorem noDbl_dropWhile (p : Char → Bool) : ∀ l : List Char,
    noDbl l → noDbl (l.dropWhile p)
  | [], _ => trivial
  | c :: t, h => by
    rw [List.dropWhile_cons]
    by_cases hp : p c = true
    · simp only [hp, if_true]
      exact noDbl_dropWhile p t (noDbl_tail h)
    · simp only [hp, if_false]
      exact h

theorem noDbl_stripRight : ∀ l : List Char, noDbl l → noDbl (stripRight l)
  | [], _ => trivial
  | c :: t, h => by
    show noDbl (if stripRight t = [] ∧ isPyWs c then [] else c :: stripRight t)
    by_cases hb : stripRight t = [] ∧ isPyWs c
    · simp only [hb, if_true]; trivial
    · simp only [hb, if_false]
      have ih := noDbl_stripRight t (noDbl_tail h)
      cases hr : stripRight t with
      | nil => trivial
      | cons y ys =>
        rcases stripRight_head? t with h0 | h0
        · rw [h0] at hr; cases hr
        · rw [hr] at h0 ih
          cases t with
          | nil => simp [stripRight] at hr
          | cons b bs =>
            have hyb : y = b := by
              have := h0
              simp only [List.head?_cons] at this
              exact Option.some.injEq _ _ ▸ (by simpa using this)
            subst hyb
            exact ⟨fun hsp => h.1 ⟨hsp.1, hsp.2⟩, ih⟩

theorem noDbl_pyStrip (l : List Char) (h : noDbl l) : noDbl (pyStrip l) :=
  noDbl_stripRight _ (noDbl_dropWhile _ _ h)

theorem collapseSpaces_eq_self : ∀ l : List Char, noDbl l → collapseSpaces l = l
  | [], _ => rfl
  | [_], _ => rfl
  | a :: b :: t, h => by
    show (if a = ' ' ∧ b = ' ' then collapseSpaces (b :: t)
      else a :: collapseSpaces (b :: t)) = _
    rw [if_neg h.1, collapseSpaces_eq_self (b :: t) h.2]

theorem stripLeft_eq_self : ∀ l : List Char,
    (∀ x, l.head? = some x → isPyWs x = false) → stripLeft l = l
  | [], _ => rfl
  | c :: t, h => by
    have hc : isPyWs c = false := h c rfl
    simp [stripLeft, hc]

theorem pyStrip_head? (l : List Char) (x : Char) (hx : (pyStrip l).head? = some x) :
    isPyWs x = false := by
  rcases stripRight_head? (stripLeft l) with h0 | h0
  · rw [show pyStrip l = stripRight (stripLeft l) from rfl, h0] at hx
    cases hx
  · rw [show pyStrip l = stripRight (stripLeft l) from rfl, h0] at hx
    have h2 := List.head?_dropWhile_not isPyWs l
    rw [show l.dropWhile isPyWs = stripLeft l from rfl, hx] at h2
    exact h2

/-- Python's `strip` is idempotent. -/
theorem pyStrip_idem (l : List Char) : pyStrip (pyStrip l) = pyStrip l := by
  show stripRight (stripLeft (pyStrip l)) = pyStrip l
  rw [stripLeft_eq_self _ (pyStrip_head? l)]
  exact stripRight_eq_self _ (fun x hx => stripRight_getLast? (stripLeft l) x hx)

/-! ## `normalize_arabic_text` (rag_system/retrieval/retriever.py, lines 17-36)

```python
if not text:
    return text
normalized = unicodedata.normalize('NFKC', text)
normalized = re.sub(r' +', ' ', normalized)
return normalized.strip()
```

`unicodedata.normalize('NFKC', ·)` is an external Unicode table lookup; it is
passed in as the parameter `nfkc`. -/

def normalize_arabic_text (nfkc : List Char → List Char) (text : List Char) :
    List Char :=
  if text = [] then text
  else pyStrip (collapseSpaces (nfkc text))

/-- C10: The text normalization applied to retrieved context is idempotent:
for every string `s`, `normalize_arabic_text (normalize_arabic_text s) =
normalize_arabic_text s`.  The external NFKC step is abstract here; the
hypothesis `hfix` records the Unicode fact that collapsing ASCII-space runs
and stripping edge whitespace of an NFKC-normalized string leaves it
NFKC-normalized (space removal inside a run keeps one separating space and
edge removal creates no new composable or mis-ordered character pairs). -/
theorem C10_normalize_arabic_text_idempotent
    (nfkc : List Char → List Char)
    (hfix : ∀ t : List Char,
      nfkc (pyStrip (collapseSpaces (nfkc t))) = pyStrip (collapseSpaces (nfkc t)))
    (s : List Char) :
    normalize_arabic_text nfkc (normalize_arabic_text nfkc s) =
      normalize_arabic_text nfkc s := by
  by_cases hs : s = []
  · simp [normalize_arabic_text, hs]
  · have hn : normalize_arabic_text nfkc s = pyStrip (collapseSpaces (nfkc s)) := by
      simp [normalize_arabic_text, hs]
    set t := pyStrip (collapseSpaces (nfkc s)) with ht
    by_cases htnil : t = []
    · rw [hn, htnil]
      simp [normalize_arabic_text]
    · rw [hn]
      show normalize_arabic_text nfkc t = t
      unfold normalize_arabic_text
      rw [if_neg htnil, ht, hfix s]
      have hnd : noDbl (pyStrip (collapseSpaces (nfkc s))) :=
        noDbl_pyStrip _ (noDbl_collapseSpaces _)
      rw [collapseSpaces_eq_self _ hnd]
      exact pyStrip_idem _

/-- Witness for C10 at a concrete input, instantiating the external NFKC map
with the identity (which trivially satisfies `hfix`). -/
theorem C10_witness :
    normalize_arabic_text id (normalize_arabic_text id (' ' :: 'a' :: ' ' :: ' ' :: 'b' :: ' ' :: [])) =
      normalize_arabic_text id (' ' :: 'a' :: ' ' :: ' ' :: 'b' :: ' ' :: []) :=
  C10_normalize_arabic_text_idempotent id (fun _ => rfl) _

/-! ## TextChunker (rag_system/chunking/text_chunker.py)

`chunk_text` splits a document into sentences on Arabic/Latin terminators
(`re.split(r'[.؟!؛]\s+', …)` after replacing newlines by `" . "`), filters out
sentences shorter than 10 characters, then greedily accumulates sentences into
chunks of at most `chunk_size` characters, seeding each new chunk with an
overlap window computed by `_get_overlap_text`. -/

/-- Chunker configuration (`TextChunker.__init__`). -/
structure ChunkerCfg where
  chunk_size : Nat
  overlap : Nat
  min_chunk_size : Nat
deriving DecidableEq

/-- One chunk dictionary produced by `chunk_text`. -/
structure ChunkRec where
  text : List Char
  source : List Char
  chunk_id : Nat
  sentences : List (List Char)
deriving DecidableEq

/-- Arabic/Latin sentence terminators `. ؟ ! ؛`. -/
def isTerm (c : Char) : Bool :=
  c = '.' || c = '؟' || c = '!' || c = '؛'

/-- Head-of-list whitespace test (the `\s` right after a terminator). -/
def headIsWs : List Char → Bool
  | [] => false
  | r :: _ => isPyWs r

/-- Python `text.replace('\n', ' . ')`. -/
def replaceNewlines (l : List Char) : List Char :=
  l.foldr (fun c acc => if c = '\n' then ' ' :: '.' :: ' ' :: acc else c :: acc) []

/-- Model of `re.split(r'[.؟!؛]\s+', text)`: scan left to right; a terminator char
followed by at least one whitespace char ends the current piece, consuming the
maximal whitespace run.  `fuel` is an upper bound on the remaining input length
so that the recursion is structural; `splitIntoSentences` supplies
`l.length`, which always suffices because every step consumes a character. -/
def splitAux : Nat → List Char → List Char → List (List Char)
  | 0, _, cur => [cur.reverse]
  | _ + 1, [], cur => [cur.reverse]
  | fuel + 1, c :: rest, cur =>
    if isTerm c && headIsWs rest then
      cur.reverse :: splitAux fuel (rest.dropWhile isPyWs) []
    else
      splitAux fuel rest (c :: cur)

/-- Model of `TextChunker._split_into_sentences`. -/
def splitIntoSentences (text : List Char) : List (List Char) :=
  let t := replaceNewlines text
  let pieces := splitAux t.length t []
  let stripped := (pieces.map pyStrip).filter (fun s => !s.isEmpty)
  stripped.filter (fun s => decide (10 ≤ s.length))

/-- The accumulation loop of `TextChunker._get_overlap_text`: walk the closed
chunk's sentences from the end, prepending whole sentences while the
cumulative length stays within the overlap budget (note the `break`). -/
def overlapLoop (budget : Nat) : List (List Char) → List Char → List Char
  | [], acc => acc
  | s :: rest, acc =>
    if acc.length + s.length ≤ budget then
      overlapLoop budget rest (s ++ ' ' :: acc)
    else acc

/-- Model of `TextChunker._get_overlap_text`. -/
def getOverlapText (budget : Nat) (sentences : List (List Char)) : List Char :=
  pyStrip (overlapLoop budget sentences.reverse [])

/-- The sentence-accumulation loop of `TextChunker.chunk_text`.  Returns the
closed chunks together with the running chunk text and its sentence list. -/
def mainLoop (cfg : ChunkerCfg) (source : List Char) :
    List (List Char) → List Char → List (List Char) → List ChunkRec →
      List ChunkRec × List Char × List (List Char)
  | [], cur, curS, chunks => (chunks, cur, curS)
  | s :: rest, cur, curS, chunks =>
    if cfg.chunk_size < cur.length + s.length ∧ cur ≠ [] then
      let chunks' := chunks ++ [⟨pyStrip cur, source, chunks.length, curS⟩]
      let ov := getOverlapText cfg.overlap curS
      mainLoop cfg source rest (ov ++ ' ' :: s) [s] chunks'
    else
      mainLoop cfg source rest (cur ++ ' ' :: s) (curS ++ [s]) chunks

/-- Model of `TextChunker.chunk_text`. -/
def chunk_text (cfg : ChunkerCfg) (text source : List Char) : List ChunkRec :=
  if text = [] ∨ (pyStrip text).length < cfg.min_chunk_size then []
  else
    let ss := splitIntoSentences text
    let r := mainLoop cfg source ss [] [] []
    if pyStrip r.2.1 ≠ [] ∧ cfg.min_chunk_size ≤ (pyStrip r.2.1).length then
      r.1 ++ [⟨pyStrip r.2.1, source, r.1.length, r.2.2⟩]
    else r.1

/-- Maximum sentence length of a sentence list. -/
def maxLen (ss : List (List Char)) : Nat :=
  ss.foldr (fun s m => max s.length m) 0

/-! ### Chunk-size bounds (claim C6) -/

theorem le_maxLen : ∀ (ss : List (List Char)) (s : List Char), s ∈ ss →
    s.length ≤ maxLen ss
  | [], s => by intro h; cases h
  | t :: ts, s => by
    intro h
    rcases List.mem_cons.mp h with rfl | h
    · exact le_max_left _ _
    · exact (le_maxLen ts s h).trans (le_max_right _ _)

theorem overlapLoop_spec (budget : Nat) : ∀ (ss : List (List Char)) (acc : List Char),
    (acc = [] ∨ (acc.getLast? = some ' ' ∧ acc.length ≤ budget + 1)) →
    (overlapLoop budget ss acc = [] ∨
      ((overlapLoop budget ss acc).getLast? = some ' ' ∧
        (overlapLoop budget ss acc).length ≤ budget + 1))
  | [], acc => fun h => h
  | s :: rest, acc => fun h => by
    simp only [overlapLoop]
    by_cases hg : acc.length + s.length ≤ budget
    · rw [if_pos hg]
      refine overlapLoop_spec budget rest (s ++ ' ' :: acc) (Or.inr ⟨?_, ?_⟩)
      · rcases h with rfl | ⟨hlast, _⟩
        · simp
        · rw [List.getLast?_append]
          cases acc with
          | nil => simp at hlast
          | cons a as =>
            rw [show (' ' :: a :: as).getLast? = (a :: as).getLast? from
              List.getLast?_cons_cons .., hlast]
            rfl
      · have : (s ++ ' ' :: acc).length = s.length + (acc.length + 1) := by
          simp
        omega
    · rw [if_neg hg]
      exact h

theorem getOverlapText_length (budget : Nat) (ss : List (List Char)) :
    (getOverlapText budget ss).length ≤ budget := by
  rcases overlapLoop_spec budget ss.reverse [] (Or.inl rfl) with hnil | ⟨hlast, hlen⟩
  · rw [getOverlapText, hnil]
    exact Nat.zero_le _
  · set acc := overlapLoop budget ss.reverse [] with hacc
    show (pyStrip acc).length ≤ budget
    rcases dropWhile_getLast? isPyWs acc with h0 | h0
    · rw [show pyStrip acc = stripRight (stripLeft acc) from rfl,
        show stripLeft acc = acc.dropWhile isPyWs from rfl, h0]
      exact Nat.zero_le _
    · have hlt : (stripRight (stripLeft acc)).length + 1 ≤ (stripLeft acc).length := by
        refine stripRight_length_lt (stripLeft acc) ' ' ?_ (by decide)
        rw [show stripLeft acc = acc.dropWhile isPyWs from rfl, h0]
        exact hlast
      have hdw : (stripLeft acc).length ≤ acc.length := length_dropWhile_le _ _
      show (stripRight (stripLeft acc)).length ≤ budget
      omega

theorem mainLoop_bound (cfg : ChunkerCfg) (source : List Char) (L B : Nat)
    (hB1 : cfg.chunk_size + 1 ≤ B) (hB2 : cfg.overlap + 1 + L ≤ B) :
    ∀ (ss : List (List Char)) (cur : List Char) (curS : List (List Char))
      (chunks : List ChunkRec),
      (∀ s ∈ ss, s.length ≤ L) →
      (∀ c ∈ chunks, c.text.length ≤ B) →
      (pyStrip cur).length ≤ B →
      (∀ c ∈ (mainLoop cfg source ss cur curS chunks).1, c.text.length ≤ B) ∧
        (pyStrip (mainLoop cfg source ss cur curS chunks).2.1).length ≤ B
  | [], _, _, _ => fun _ hch hcur => ⟨hch, hcur⟩
  | s :: rest, cur, curS, chunks => fun hss hch hcur => by
    have hsL : s.length ≤ L := hss s (List.mem_cons_self _ _)
    have hrest : ∀ x ∈ rest, x.length ≤ L := fun x hx =>
      hss x (List.mem_cons_of_mem _ hx)
    simp only [mainLoop]
    by_cases hg : cfg.chunk_size < cur.length + s.length ∧ cur ≠ []
    · rw [if_pos hg]
      refine mainLoop_bound cfg source L B hB1 hB2 rest _ [s] _ hrest ?_ ?_
      · intro c hc
        rcases List.mem_append.mp hc with hold | hnew
        · exact hch c hold
        · rcases List.mem_singleton.mp hnew with rfl
          exact hcur
      · have hov : (getOverlapText cfg.overlap curS).length ≤ cfg.overlap :=
          getOverlapText_length _ _
        have hlen : (getOverlapText cfg.overlap curS ++ ' ' :: s).length =
            (getOverlapText cfg.overlap curS).length + (s.length + 1) := by
          simp
        have := pyStrip_length_le (getOverlapText cfg.overlap curS ++ ' ' :: s)
        omega
    · rw [if_neg hg]
      refine mainLoop_bound cfg source L B hB1 hB2 rest _ (curS ++ [s]) _ hrest hch ?_
      by_cases hc0 : cur = []
      · subst hc0
        have h1 : pyStrip ([] ++ ' ' :: s) = stripRight (s.dropWhile isPyWs) := by
          show stripRight ((' ' :: s).dropWhile isPyWs) = _
          rw [List.dropWhile_cons]
          norm_num [isPyWs]
        rw [h1]
        have := (stripRight_length_le (s.dropWhile isPyWs)).trans
          (length_dropWhile_le isPyWs s)
        omega
      · have hle : cur.length + s.length ≤ cfg.chunk_size := by
          rcases Nat.lt_or_ge cfg.chunk_size (cur.length + s.length) with hlt | hge
          · exact absurd ⟨hlt, hc0⟩ hg
          · exact hge
        have hlen : (cur ++ ' ' :: s).length = cur.length + (s.length + 1) := by
          simp
        have := pyStrip_length_le (cur ++ ' ' :: s)
        omega

/-- C6 (amended): every chunk's trimmed length is at most
`max (chunk_size + 1) (overlap + 1 + Lmax)` where `Lmax` is the longest
sentence produced by splitting; the `[min_chunk_size, chunk_size]` window of
the original claim does not hold for non-final chunks. -/
theorem C6_chunk_length_bound (cfg : ChunkerCfg) (text source : List Char)
    (c : ChunkRec) (hc : c ∈ chunk_text cfg text source) :
    c.text.length ≤
      max (cfg.chunk_size + 1) (cfg.overlap + 1 + maxLen (splitIntoSentences text)) := by
  set L := maxLen (splitIntoSentences text) with hL
  set B := max (cfg.chunk_size + 1) (cfg.overlap + 1 + L) with hB
  by_cases hguard : text = [] ∨ (pyStrip text).length < cfg.min_chunk_size
  · rw [chunk_text, if_pos hguard] at hc
    cases hc
  · rw [chunk_text, if_neg hguard] at hc
    have hmain := mainLoop_bound cfg source L B (le_max_left _ _)
      (le_max_right _ _) (splitIntoSentences text) [] [] []
      (fun s hs => le_maxLen _ s hs) (fun c hc => by cases hc) (by simp [pyStrip, stripLeft, stripRight])
    set r := mainLoop cfg source (splitIntoSentences text) [] [] [] with hr
    by_cases hfin : pyStrip r.2.1 ≠ [] ∧ cfg.min_chunk_size ≤ (pyStrip r.2.1).length
    · rw [if_pos hfin] at hc
      rcases List.mem_append.mp hc with hold | hnew
      · exact hmain.1 c hold
      · rcases List.mem_singleton.mp hnew with rfl
        exact hmain.2
    · rw [if_neg hfin] at hc
      exact hmain.1 c hc

/-- The concrete document used to refute C6 as stated: three sentences of
lengths 10, 25 and 25 with `chunk_size = 30`, `overlap = 10`,
`min_chunk_size = 25`. -/
def c6Text : List Char :=
  (List.replicate 10 'a') ++ ('.' :: ' ' :: List.replicate 25 'b') ++
    ('.' :: ' ' :: List.replicate 25 'c')

/-- The claim C6 as stated: every chunk except possibly the last lies in the
`[min_chunk_size, chunk_size]` window. -/
def chunkBoundsClaim (cfg : ChunkerCfg) (text source : List Char) : Prop :=
  ∀ c ∈ (chunk_text cfg text source).dropLast,
    cfg.min_chunk_size ≤ c.text.length ∧ c.text.length ≤ cfg.chunk_size

set_option maxRecDepth 100000 in
/-- C6 counterexample: on `c6Text` the chunker emits chunks of trimmed lengths
`[10, 36, 25]`; the first (non-last) chunk is below `min_chunk_size = 25` and
the second (non-last) chunk exceeds `chunk_size = 30`. -/
theorem C6_counterexample : ¬ chunkBoundsClaim ⟨30, 10, 25⟩ c6Text ['s'] := by
  intro h
  have := h ⟨List.replicate 10 'a', ['s'], 0, [List.replicate 10 'a']⟩ (by decide)
  simp at this

set_option maxRecDepth 100000 in
/-- Witness for the amended C6 bound at the final chunk of `c6Text`. -/
theorem C6_witness :
    (⟨List.replicate 25 'c', ['s'], 2, [List.replicate 25 'c']⟩ : ChunkRec).text.length ≤
      max (30 + 1) (10 + 1 + maxLen (splitIntoSentences c6Text)) :=
  C6_chunk_length_bound ⟨30, 10, 25⟩ c6Text ['s'] _ (by decide)

/-! ## FAISSVectorStore (rag_system/vector_store/faiss_store.py)

Python dicts are modelled as insertion-ordered association lists of
`String × PyVal`.  The metadata dicts handed to `add_vectors` are mutable,
shared objects in Python; to express that sharing, the dicts live in an
explicit heap (`Heap`) and the store and the caller hold references
(indices) into it.  FAISS's `IndexFlatIP` is modelled by the list of stored
(already normalized) vectors; `faiss.normalize_L2` is an external numeric
routine and enters as a function parameter `nrm`.  Scores are `ℚ`. -/

/-- A Python value stored in a metadata dict. -/
inductive PyVal where
  | vInt (n : Int)
  | vStr (s : List Char)
  | vRat (q : ℚ)
deriving DecidableEq

/-- A Python dict (insertion ordered). -/
abbrev Dict := List (String × PyVal)

/-- Python `d[k] = v`: overwrite in place if the key exists, else append. -/
def dictSet (d : Dict) (k : String) (v : PyVal) : Dict :=
  if (List.lookup k d).isSome then
    d.map (fun p => if p.1 = k then (k, v) else p)
  else d ++ [(k, v)]

/-- Python `d.get(k)`. -/
def dictGet (d : Dict) (k : String) : Option PyVal := List.lookup k d

/-- Heap of Python dict objects; a `Ref` is an index into it. -/
abbrev Heap := List Dict

/-- Dereference (Python object access; references are always valid). -/
def heapGet (h : Heap) (r : Nat) : Dict := h.getD r []

/-- In-place mutation of one dict object. -/
def heapSet (h : Heap) (r : Nat) (d : Dict) : Heap := h.set r d

/-- An embedding vector. -/
abbrev Vec := List ℚ

/-- Inner product. -/
def dot (a b : Vec) : ℚ := (List.zipWith (· * ·) a b).sum

/-- The vector store state: `index` models `faiss.IndexFlatIP` (its `ntotal`
is `index.length`), plus the parallel `texts`, `metadata` and
`id_to_metadata` fields.  `metadata` and `id_to_metadata` hold references to
shared dict objects in the heap. -/
structure VStore where
  dimension : Nat
  index : List Vec
  texts : List (List Char)
  metadata : List Nat
  id_to_metadata : List (Nat × Nat)
deriving DecidableEq

/-- Model of `FAISSVectorStore.__init__`. -/
def mkStore (dimension : Nat) : VStore :=
  { dimension := dimension, index := [], texts := [], metadata := [],
    id_to_metadata := [] }

/-- The per-entry loop of `add_vectors`: for each `(text, meta)` pair, set
`meta['id']`, `meta['text']` in place, and collect the appended `texts`,
`metadata` and `id_to_metadata` entries.  Mirrors
`for i, (text, meta) in enumerate(zip(texts, metadata))`. -/
def addEntries (startId : Nat) (heap : Heap) :
    List (List Char) → List Nat →
      Heap × List (List Char) × List Nat × List (Nat × Nat)
  | [], _ => (heap, [], [], [])
  | _, [] => (heap, [], [], [])
  | t :: ts, r :: rs =>
    let d := dictSet (dictSet (heapGet heap r) "id" (.vInt startId)) "text" (.vStr t)
    let heap' := heapSet heap r d
    let rest := addEntries (startId + 1) heap' ts rs
    (rest.1, t :: rest.2.1, r :: rest.2.2.1, (startId, r) :: rest.2.2.2)

/-- Model of `FAISSVectorStore.add_vectors`.  The length check is the first statement
of the Python method, so a mismatch raises before any mutation. -/
def add_vectors (nrm : Vec → Vec) (st : VStore) (heap : Heap)
    (embeddings : List Vec) (texts : List (List Char)) (metadata : List Nat) :
    Except (List Char) (VStore × Heap) :=
  if embeddings.length ≠ metadata.length ∨ embeddings.length ≠ texts.length then
    .error ("Embeddings, texts, and metadata must have same length".toList)
  else
    let vectors := embeddings.map nrm
    let startId := st.index.length
    let e := addEntries startId heap texts metadata
    .ok ({ st with
            index := st.index ++ vectors,
            texts := st.texts ++ e.2.1,
            metadata := st.metadata ++ e.2.2.1,
            id_to_metadata := st.id_to_metadata ++ e.2.2.2 }, e.1)

/-- Candidate ordering used by the flat inner-product index: higher score
first, ties broken by lower id (insertion order). -/
def scoreBefore (a b : Nat × ℚ) : Bool :=
  decide (b.2 < a.2) || (decide (a.2 = b.2) && decide (a.1 ≤ b.1))

/-- The behaviour of `IndexFlatIP.search` on `k ≤ ntotal`: the `k` highest
inner products of the stored vectors with the query, in descending score
order (ids ascending on ties). -/
def faissTopK (index : List Vec) (q : Vec) (k : Nat) : List (Nat × ℚ) :=
  ((index.enum.map (fun p => (p.1, dot q p.2))).mergeSort scoreBefore).take k

/-- Model of `FAISSVectorStore.search`. -/
def search (nrm : Vec → Vec) (st : VStore) (heap : Heap)
    (query_embedding : Vec) (top_k : Nat) : List Dict :=
  if st.index.length = 0 then []
  else
    let nq := nrm query_embedding
    let top := faissTopK st.index nq (min top_k st.index.length)
    top.filterMap (fun p =>
      if p.1 < st.metadata.length then
        some (dictSet (heapGet heap (st.metadata.getD p.1 0)) "score" (.vRat p.2))
      else none)

/-- Model of `FAISSVectorStore.clear`: replaces the index and resets `metadata` and
`id_to_metadata` — but, as in the source, does not touch `texts`. -/
def clear (st : VStore) : VStore :=
  { st with index := [], metadata := [], id_to_metadata := [] }

/-! ### Dict and heap lemmas -/

theorem dictGet_dictSet (d : Dict) (k : String) (v : PyVal) :
    dictGet (dictSet d k v) k = some v := by
  rw [dictSet]
  by_cases h : (List.lookup k d).isSome
  · rw [if_pos h]
    rw [dictGet]
    induction d with
    | nil => simp at h
    | cons p rest ih =>
      by_cases hk : p.1 = k
      · simp [hk, List.lookup_cons]
      · have hne : (k == p.1) = false := by
          simp only [beq_eq_false_iff_ne, ne_eq]
          exact fun he => hk he.symm
        simp only [List.map_cons, if_neg hk]
        rw [List.lookup_cons]
        simp only [hne]
        refine ih ?_
        rw [List.lookup_cons] at h
        simpa [hne] using h
  · rw [if_neg h]
    rw [dictGet, List.lookup_append]
    have hnone : List.lookup k d = none := by
      cases hl : List.lookup k d with
      | none => rfl
      | some _ => rw [hl] at h; simp at h
    rw [hnone]
    simp

/-- Entries processed by `addEntries` leave every dict outside the given
reference list untouched. -/
theorem addEntries_untouched :
    ∀ (ts : List (List Char)) (rs : List Nat) (s : Nat) (h : Heap) (r : Nat),
      r ∉ rs → heapGet (addEntries s h ts rs).1 r = heapGet h r
  | [], rs, s, h, r => by cases rs <;> (intro _; rfl)
  | _ :: _, [], s, h, r => fun _ => rfl
  | t :: ts, r' :: rs, s, h, r => by
    intro hmem
    have hne : r' ≠ r := fun he => hmem (he ▸ List.mem_cons_self _ _)
    have htail : r ∉ rs := fun hr => hmem (List.mem_cons_of_mem _ hr)
    show heapGet (addEntries (s + 1) (heapSet h r' _) ts rs).1 r = _
    rw [addEntries_untouched ts rs (s + 1) _ r htail]
    show (h.set r' _).getD r [] = h.getD r []
    simp only [List.getD_eq_getElem?_getD]
    rw [List.getElem?_set_ne hne]

theorem addEntries_heap_length :
    ∀ (ts : List (List Char)) (rs : List Nat) (s : Nat) (h : Heap),
      (addEntries s h ts rs).1.length = h.length
  | [], rs, _, _ => by cases rs <;> rfl
  | _ :: _, [], _, _ => rfl
  | t :: ts, r :: rs, s, h => by
    show (addEntries (s + 1) (heapSet h r _) ts rs).1.length = _
    rw [addEntries_heap_length ts rs]
    simp [heapSet]

/-- After `addEntries`, the dict at the `i`-th reference carries the
sequentially assigned id and the `i`-th text, applied to its pre-call
contents. -/
theorem addEntries_heap_at :
    ∀ (ts : List (List Char)) (rs : List Nat) (s : Nat) (h : Heap),
      ts.length = rs.length →
      rs.Nodup → (∀ r ∈ rs, r < h.length) →
      ∀ i (hi : i < rs.length),
        heapGet (addEntries s h ts rs).1 (rs.get ⟨i, hi⟩) =
          dictSet (dictSet (heapGet h (rs.get ⟨i, hi⟩)) "id" (.vInt (s + i)))
            "text" (.vStr (ts.getD i []))
  | _, [], _, _ => by intro _ _ _ i hi; cases hi
  | [], _ :: _, _, _ => by intro hlen; simp at hlen
  | t :: ts, r :: rs, s, h => by
    intro hlen hnd href i hi
    have hr : r < h.length := href r (List.mem_cons_self _ _)
    have hnotin : r ∉ rs := (List.nodup_cons.mp hnd).1
    have hlen' : ts.length = rs.length := by simpa using hlen
    cases i with
    | zero =>
      show heapGet (addEntries (s + 1)
        (heapSet h r (dictSet (dictSet (heapGet h r) "id" (.vInt s))
          "text" (.vStr t))) ts rs).1 r = _
      rw [addEntries_untouched ts rs (s + 1) _ r hnotin]
      show (h.set r _).getD r [] = _
      simp only [List.getD_eq_getElem?_getD]
      rw [List.getElem?_set_self hr]
      simp [heapGet]
    | succ i =>
      have hi' : i < rs.length := Nat.lt_of_succ_lt_succ hi
      show heapGet (addEntries (s + 1)
        (heapSet h r (dictSet (dictSet (heapGet h r) "id" (.vInt s))
          "text" (.vStr t))) ts rs).1 (rs.get ⟨i, hi'⟩) = _
      have hbound : ∀ r' ∈ rs, r' <
          (heapSet h r (dictSet (dictSet (heapGet h r) "id" (.vInt s))
            "text" (.vStr t))).length := by
        intro r' hr'
        simp only [heapSet, List.length_set]
        exact href r' (List.mem_cons_of_mem _ hr')
      rw [addEntries_heap_at ts rs (s + 1) _ hlen' (List.nodup_cons.mp hnd).2
        hbound i hi']
      have hne : r ≠ rs.get ⟨i, hi'⟩ :=
        fun he => hnotin (he ▸ List.get_mem rs i hi')
      have hget : heapGet (heapSet h r
          (dictSet (dictSet (heapGet h r) "id" (.vInt s)) "text" (.vStr t)))
          (rs.get ⟨i, hi'⟩) = heapGet h (rs.get ⟨i, hi'⟩) := by
        show (h.set r _).getD _ [] = h.getD _ []
        simp only [List.getD_eq_getElem?_getD]
        rw [List.getElem?_set_ne hne]
      rw [hget]
      have hs : ((s + 1 : Nat) : ℤ) + (i : ℤ) = ((s : Nat) : ℤ) + ((i + 1 : Nat) : ℤ) := by
        push_cast
        ring
      rw [hs]
      rfl

theorem addEntries_refs : ∀ (ts : List (List Char)) (rs : List Nat) (s : Nat) (h : Heap),
    ts.length = rs.length → (addEntries s h ts rs).2.2.1 = rs
  | [], [], _, _, _ => rfl
  | [], _ :: _, _, _, hlen => by simp at hlen
  | _ :: _, [], _, _, hlen => by simp at hlen
  | t :: ts, r :: rs, s, h, hlen => by
    show r :: (addEntries (s + 1) _ ts rs).2.2.1 = r :: rs
    rw [addEntries_refs ts rs (s + 1) _ (by simpa using hlen)]

theorem addEntries_ids : ∀ (ts : List (List Char)) (rs : List Nat) (s : Nat) (h : Heap),
    ts.length = rs.length →
    (addEntries s h ts rs).2.2.2 =
      (List.range ts.length).map (fun i => (s + i, rs.getD i 0))
  | [], [], _, _, _ => rfl
  | [], _ :: _, _, _, hlen => by simp at hlen
  | _ :: _, [], _, _, hlen => by simp at hlen
  | t :: ts, r :: rs, s, h, hlen => by
    show (s, r) :: (addEntries (s + 1) _ ts rs).2.2.2 = _
    rw [addEntries_ids ts rs (s + 1) _ (by simpa using hlen)]
    rw [show (t :: ts).length = ts.length + 1 from rfl, List.range_succ_eq_map]
    rw [List.map_cons, List.map_map]
    refine congrArg₂ _ (by simp) ?_
    refine List.map_congr_left fun i _ => ?_
    show (s + 1 + i, rs.getD i 0) = (s + (i + 1), (r :: rs).getD (i + 1) 0)
    refine congrArg₂ _ (by omega) rfl

/-! ### Claims C4, C7, C9 -/

/-- C4 (code bug): the invariant `index count == texts count == metadata
count` is violated by `clear`, which replaces the FAISS index and resets
`metadata` and `id_to_metadata` but never clears `self.texts`
(faiss_store.py lines 158-163).  Concretely: insert one vector into a fresh
store (all three counts are 1), then `clear`; the index and metadata are
empty but `texts` still has one entry. -/
theorem C4_clear_breaks_invariant :
    (add_vectors id (mkStore 2) [[]] [[(1 : ℚ), 0]] [['t']] [0]).map
      (fun p =>
        ((p.1.index.length, p.1.texts.length, p.1.metadata.length),
         ((clear p.1).index.length, (clear p.1).texts.length,
          (clear p.1).metadata.length))) =
      .ok ((1, 1, 1), (0, 1, 0)) := by
  rfl

/-- C7: a length mismatch between embeddings, texts and metadata raises a
validation error (before any mutation, since the check is the first statement
of `add_vectors`); on a match, the new `id_to_metadata` entries are the
contiguous ids `size, size+1, …` starting at the store's size before the
call, paired with the caller's metadata references. -/
theorem C7_add_vectors_validation_and_contiguous_ids
    (nrm : Vec → Vec) (st : VStore) (heap : Heap)
    (embeds : List Vec) (texts : List (List Char)) (metadata : List Nat) :
    (embeds.length ≠ metadata.length ∨ embeds.length ≠ texts.length →
      add_vectors nrm st heap embeds texts metadata =
        .error ("Embeddings, texts, and metadata must have same length".toList)) ∧
    (embeds.length = metadata.length → embeds.length = texts.length →
      ∃ st' heap',
        add_vectors nrm st heap embeds texts metadata = .ok (st', heap') ∧
        st'.id_to_metadata = st.id_to_metadata ++
          (List.range embeds.length).map
            (fun i => (st.index.length + i, metadata.getD i 0))) := by
  constructor
  · intro hmis
    rw [add_vectors, if_pos hmis]
  · intro h1 h2
    rw [add_vectors, if_neg (by omega)]
    refine ⟨_, _, rfl, ?_⟩
    show st.id_to_metadata ++
      (addEntries st.index.length heap texts metadata).2.2.2 = _
    rw [addEntries_ids texts metadata st.index.length heap (by omega)]
    rw [show texts.length = embeds.length from h2.symm]

/-- Witness for C7: a mismatched call errors; a matched call on a fresh
store assigns the single new entry id 0. -/
theorem C7_witness :
    add_vectors id (mkStore 2) [[]] [[(1 : ℚ), 0]] [] [0] =
      .error ("Embeddings, texts, and metadata must have same length".toList) ∧
    ∃ st' heap',
      add_vectors id (mkStore 2) [[]] [[(1 : ℚ), 0]] [['a']] [0] = .ok (st', heap') ∧
      st'.id_to_metadata = [] ++ (List.range 1).map (fun i => (0 + i, [0].getD i 0)) :=
  ⟨(C7_add_vectors_validation_and_contiguous_ids id (mkStore 2) [[]]
      [[(1 : ℚ), 0]] [] [0]).1 (Or.inr (by decide)),
   (C7_add_vectors_validation_and_contiguous_ids id (mkStore 2) [[]]
      [[(1 : ℚ), 0]] [['a']] [0]).2 rfl rfl⟩

/-- C9: a successful `add_vectors` mutates the caller's metadata dicts in
place — each gains `'id'` (its assigned id) and `'text'` (its text) — and the
store's `metadata` list holds references to those same shared dict objects,
not copies. -/
theorem C9_add_vectors_mutates_shared_dicts
    (nrm : Vec → Vec) (st : VStore) (heap : Heap)
    (embeds : List Vec) (texts : List (List Char)) (metadata : List Nat)
    (h1 : embeds.length = metadata.length) (h2 : embeds.length = texts.length)
    (hnd : metadata.Nodup) (href : ∀ r ∈ metadata, r < heap.length) :
    ∃ st' heap',
      add_vectors nrm st heap embeds texts metadata = .ok (st', heap') ∧
      st'.metadata = st.metadata ++ metadata ∧
      ∀ i (hi : i < metadata.length),
        heapGet heap' (metadata.get ⟨i, hi⟩) =
          dictSet (dictSet (heapGet heap (metadata.get ⟨i, hi⟩))
            "id" (.vInt (st.index.length + i))) "text" (.vStr (texts.getD i [])) := by
  rw [add_vectors, if_neg (by omega)]
  refine ⟨_, _, rfl, ?_, ?_⟩
  · show st.metadata ++
      (addEntries st.index.length heap texts metadata).2.2.1 = _
    rw [addEntries_refs texts metadata st.index.length heap (by omega)]
  · intro i hi
    exact addEntries_heap_at texts metadata st.index.length heap (by omega)
      hnd href i hi

/-- Witness for C9: one entry inserted into a fresh store through heap
reference 0; the shared dict gains `id = 0` and the text. -/
theorem C9_witness :
    ∃ st' heap',
      add_vectors id (mkStore 2) [[]] [[(1 : ℚ), 0]] [['a']] [0] = .ok (st', heap') ∧
      st'.metadata = [] ++ [0] ∧
      ∀ i (hi : i < [0].length),
        heapGet heap' ([0].get ⟨i, hi⟩) =
          dictSet (dictSet (heapGet [[]] ([0].get ⟨i, hi⟩))
            "id" (.vInt ((mkStore 2).index.length + i)))
            "text" (.vStr ([['a']].getD i [])) :=
  C9_add_vectors_mutates_shared_dicts id (mkStore 2) [[]] [[(1 : ℚ), 0]]
    [['a']] [0] rfl rfl (by decide) (by decide)

/-! ### Claim C8: search bounds and ordering -/

/-- The `'score'` entry of a result dict (0 when absent, as in
`result.get('score', 0)`). -/
def scoreOf (d : Dict) : ℚ :=
  match dictGet d "score" with
  | some (.vRat q) => q
  | _ => 0

theorem scoreOf_dictSet (d : Dict) (q : ℚ) :
    scoreOf (dictSet d "score" (.vRat q)) = q := by
  rw [scoreOf, dictGet_dictSet]

theorem scoreBefore_trans (a b c : Nat × ℚ) (hab : scoreBefore a b = true)
    (hbc : scoreBefore b c = true) : scoreBefore a c = true := by
  simp only [scoreBefore, Bool.or_eq_true, Bool.and_eq_true, decide_eq_true_eq] at *
  rcases hab with h1 | ⟨h1, h2⟩ <;> rcases hbc with h3 | ⟨h3, h4⟩
  · exact Or.inl (h3.trans h1)
  · exact Or.inl (h3 ▸ h1)
  · exact Or.inl (h1 ▸ h3)
  · exact Or.inr ⟨h1.trans h3, h2.trans h4⟩

theorem scoreBefore_total (a b : Nat × ℚ) :
    (scoreBefore a b || scoreBefore b a) = true := by
  simp only [scoreBefore, Bool.or_eq_true, Bool.and_eq_true, decide_eq_true_eq]
  rcases lt_trichotomy a.2 b.2 with h | h | h
  · exact Or.inr (Or.inl h)
  · rcases Nat.le_total a.1 b.1 with hn | hn
    · exact Or.inl (Or.inr ⟨h, hn⟩)
    · exact Or.inr (Or.inr ⟨h.symm, hn⟩)
  · exact Or.inl (Or.inl h)

/-- C8: `search` returns at most `min k ntotal` results, in non-increasing
score order; searching an empty store returns `[]` (and, being a total
function of the model, raises nothing). -/
theorem C8_search_bounded_and_sorted (nrm : Vec → Vec) (st : VStore)
    (heap : Heap) (q : Vec) (k : Nat) :
    (search nrm st heap q k).length ≤ min k st.index.length ∧
    List.Pairwise (fun a b => scoreOf b ≤ scoreOf a) (search nrm st heap q k) ∧
    (st.index = [] → search nrm st heap q k = []) := by
  by_cases hz : st.index.length = 0
  · rw [search, if_pos hz]
    exact ⟨Nat.zero_le _, List.Pairwise.nil, fun _ => rfl⟩
  · rw [search, if_neg hz]
    have hzn : st.index ≠ [] := fun he => hz (by rw [he]; rfl)
    refine ⟨?_, ?_, fun he => absurd he hzn⟩
    · refine (List.length_filterMap_le _ _).trans ?_
      rw [faissTopK, List.length_take, List.length_mergeSort, List.length_map,
        List.enum_length]
      omega
    · have hsorted : List.Pairwise (fun a b => scoreBefore a b = true)
          (faissTopK st.index (nrm q) (min k st.index.length)) := by
        refine List.Pairwise.sublist (List.take_sublist _ _) ?_
        exact List.sorted_mergeSort scoreBefore_trans scoreBefore_total _
      refine List.pairwise_filterMap.mpr (hsorted.imp ?_)
      intro a a' hab d hd d' hd'
      have hda : d = dictSet (heapGet heap (st.metadata.getD a.1 0)) "score" (.vRat a.2) := by
        by_cases hia : a.1 < st.metadata.length
        · rw [if_pos hia] at hd
          exact (Option.some.inj (Option.mem_def.mp hd)).symm
        · rw [if_neg hia] at hd
          cases hd
      have hda' : d' = dictSet (heapGet heap (st.metadata.getD a'.1 0)) "score" (.vRat a'.2) := by
        by_cases hia : a'.1 < st.metadata.length
        · rw [if_pos hia] at hd'
          exact (Option.some.inj (Option.mem_def.mp hd')).symm
        · rw [if_neg hia] at hd'
          cases hd'
      rw [hda, hda', scoreOf_dictSet, scoreOf_dictSet]
      simp only [scoreBefore, Bool.or_eq_true, Bool.and_eq_true,
        decide_eq_true_eq] at hab
      rcases hab with h | ⟨h, _⟩
      · exact le_of_lt h
      · exact le_of_eq h.symm

/-- Witness for C8 on a concrete two-vector store. -/
theorem C8_witness :
    (search id
        { dimension := 2, index := [[(1 : ℚ), 0], [0, 1]], texts := [['a'], ['b']],
          metadata := [0, 1], id_to_metadata := [(0, 0), (1, 1)] }
        [[("t", .vStr ['a'])], [("t", .vStr ['b'])]] [(1 : ℚ), 0] 1).length ≤
      min 1 2 ∧
    List.Pairwise (fun a b => scoreOf b ≤ scoreOf a)
      (search id
        { dimension := 2, index := [[(1 : ℚ), 0], [0, 1]], texts := [['a'], ['b']],
          metadata := [0, 1], id_to_metadata := [(0, 0), (1, 1)] }
        [[("t", .vStr ['a'])], [("t", .vStr ['b'])]] [(1 : ℚ), 0] 1) ∧
    ([[(1 : ℚ), 0], [0, 1]] = ([] : List Vec) →
      search id
        { dimension := 2, index := [[(1 : ℚ), 0], [0, 1]], texts := [['a'], ['b']],
          metadata := [0, 1], id_to_metadata := [(0, 0), (1, 1)] }
        [[("t", .vStr ['a'])], [("t", .vStr ['b'])]] [(1 : ℚ), 0] 1 = []) :=
  C8_search_bounded_and_sorted id _ _ [(1 : ℚ), 0] 1

/-! ## GenerationClient (rag_system/llm/gemini_llm.py)

The HTTP transport is external: a schedule maps the attempt number to the
response (or raised exception) that `requests.post` produces on that attempt.
`postprocess_arabic_output` (a chain of Unicode fix-ups) is irrelevant to the
retry claims and enters as the parameter `post`. -/

/-- An exception escaping one network attempt. -/
inductive GenError where
  | httpError (status : Nat)
  | timeoutErr
  | otherErr
deriving DecidableEq

/-- Tenacity predicate `retry_if_exception_type((requests.exceptions.HTTPError,
requests.exceptions.Timeout))`: tenacity's retry predicate is *type*-based —
it does not inspect the HTTP status code. -/
def tenacityRetryable : GenError → Bool
  | .httpError _ => true
  | .timeoutErr => true
  | .otherErr => false

/-- An HTTP response. -/
structure HttpResp where
  status : Nat
  body : List Char
deriving DecidableEq

/-- One attempt of the body of `GeminiLLM.generate`: a 429 sleeps, then
`raise_for_status` raises `HTTPError(429)`; any other status ≥ 400 raises
`HTTPError(status)`; otherwise the message content is post-processed and
returned.  Every raised exception is re-raised unchanged by the
`except` clauses. -/
def generate_once (post : List Char → List Char) (resp : HttpResp) :
    Except GenError (List Char) :=
  if resp.status = 429 then .error (.httpError 429)
  else if 400 ≤ resp.status then .error (.httpError resp.status)
  else .ok (post resp.body)

/-- The outcome of a tenacity-wrapped call: success, an immediately
re-raised non-retryable exception, or retries exhausted
(`stop_after_attempt`), each recording how many attempts ran. -/
inductive TenacityOutcome (α : Type) where
  | ok (a : α) (attempts : Nat)
  | raised (e : GenError) (attempts : Nat)
  | exhausted (last : GenError) (attempts : Nat)
deriving DecidableEq

/-- The tenacity driver with `stop_after_attempt`: `attempt` is the 1-based
attempt number, `fuel` the number of attempts still allowed. -/
def tenacityGo (f : Nat → Except GenError α) : Nat → Nat → TenacityOutcome α
  | attempt, 0 => .exhausted .otherErr attempt
  | attempt, fuel + 1 =>
    match f attempt with
    | .ok a => .ok a attempt
    | .error e =>
      if tenacityRetryable e then
        match fuel with
        | 0 => .exhausted e attempt
        | _ + 1 => tenacityGo f (attempt + 1) fuel
      else .raised e attempt

/-- Model of `GeminiLLM.generate` under its decorator
`@retry(stop=stop_after_attempt(5), wait=wait_exponential(...),
retry=retry_if_exception_type((HTTPError, Timeout)))`. -/
def generate (post : List Char → List Char) (transport : Nat → HttpResp) :
    TenacityOutcome (List Char) :=
  tenacityGo (fun i => generate_once post (transport i)) 1 5

/-- C2 (code bug): the claim says a non-429 HTTP failure (e.g. 500)
propagates immediately without being retried, but tenacity's retry predicate
matches the exception *type* `HTTPError`, so an HTTP 500 is retried up to the
full 5-attempt budget: on a transport that always answers 500, `generate`
runs 5 attempts and ends with the retries-exhausted outcome instead of
raising after attempt 1. -/
theorem C2_http500_is_retried :
    generate id (fun _ => ⟨500, []⟩) = .exhausted (.httpError 500) 5 ∧
    generate id (fun _ => ⟨500, []⟩) ≠ .raised (.httpError 500) 1 := by
  constructor
  · rfl
  · intro h
    cases h

/-! ### Streaming (`GeminiLLM.stream_generate`) -/

/-- One line of the SSE stream after JSON handling: the `[DONE]` marker, a
`delta.content` fragment, or anything else (blank lines, non-data lines,
malformed JSON — all skipped by the source). -/
inductive SSE where
  | doneMarker
  | contentEv (s : List Char)
  | other
deriving DecidableEq

/-- What one attempt produces: a response (status plus iterated lines) or a
raised exception. -/
inductive AttemptOutcome where
  | resp (status : Nat) (lines : List SSE)
  | exn (e : GenError)
deriving DecidableEq

/-- The zero-fragment fallback (`non_stream_response = self.generate(prompt)`):
a non-empty result is yielded as one fragment, an empty result yields nothing
(`if non_stream_response:`), and an exception from the fallback is swallowed
(`except Exception as e: logger.error(...)`). -/
def fallbackYield : Except GenError (List Char) → List (List Char)
  | .ok s => if s = [] then [] else [s]
  | .error _ => []

/-- The `for line in response.iter_lines()` loop with its `chunks_yielded`
counter: returns the fragments yielded by this attempt and the number of
times the synchronous `generate` fallback was invoked. -/
def procLines (gen : Except GenError (List Char)) :
    List SSE → Nat → List (List Char) × Nat
  | [], chunks => if chunks = 0 then (fallbackYield gen, 1) else ([], 0)
  | .doneMarker :: _, chunks => if chunks = 0 then (fallbackYield gen, 1) else ([], 0)
  | .contentEv s :: rest, chunks =>
    if s = [] then procLines gen rest chunks
    else
      let r := procLines gen rest (chunks + 1)
      (s :: r.1, r.2)
  | .other :: rest, chunks => procLines gen rest chunks

/-- The observable outcome of a full `stream_generate` call: the fragments
yielded, the exception raised at the end (if any), and how many times the
synchronous fallback ran. -/
structure StreamOutcome where
  fragments : List (List Char)
  raised : Option GenError
  fallbacks : Nat
deriving DecidableEq

/-- The `e.response.status_code == 429` test of the `except HTTPError` clause. -/
def isRateLimit : GenError → Bool
  | .httpError s => s = 429
  | _ => false

/-- The retry loop of `stream_generate` (`for attempt in range(max_retries)`).
A 429 *response* sleeps and `continue`s — without touching `last_error`, as
in the source; a 429 `HTTPError` *exception* records `last_error` and
`continue`s; other failures raise; a non-error response processes its lines
and returns.  When the loop exhausts, `last_error` is raised if set. -/
def stream_generate_go (sched : Nat → AttemptOutcome)
    (gen : Except GenError (List Char)) :
    Nat → Nat → Option GenError → StreamOutcome
  | _, 0, lastErr => ⟨[], lastErr, 0⟩
  | i, fuel + 1, lastErr =>
    match sched i with
    | .resp status lines =>
      if status = 429 then
        stream_generate_go sched gen (i + 1) fuel lastErr
      else if 400 ≤ status then ⟨[], some (.httpError status), 0⟩
      else
        let r := procLines gen lines 0
        ⟨r.1, none, r.2⟩
    | .exn e =>
      if isRateLimit e then stream_generate_go sched gen (i + 1) fuel (some e)
      else ⟨[], some e, 0⟩

/-- Model of `GeminiLLM.stream_generate(prompt, max_retries=5)`.  `gen` is the result
the synchronous `generate` would produce if the fallback runs. -/
def stream_generate (sched : Nat → AttemptOutcome)
    (gen : Except GenError (List Char)) (max_retries : Nat) : StreamOutcome :=
  stream_generate_go sched gen 0 max_retries none

/-- C3 (code bug): if all 5 attempts end in an HTTP-429 *response*, the
status-code branch `continue`s without assigning `last_error` (only the
`except HTTPError` branch assigns it), so after the budget is exhausted the
final `if last_error:` is false and the generator terminates silently —
zero fragments and no exception — contradicting the claim that the last
error is raised. -/
theorem C3_all_429_responses_end_silently :
    stream_generate (fun _ => .resp 429 []) (.ok ['x']) 5 =
      ⟨[], none, 0⟩ := by
  rfl

/-! ### Claim C5: the zero-fragment fallback -/

/-- Returns `true` iff processing these lines yields no fragment before the terminal
condition (end of stream or `[DONE]`). -/
def yieldsNone : List SSE → Bool
  | [] => true
  | .doneMarker :: _ => true
  | .contentEv s :: rest => if s = [] then yieldsNone rest else false
  | .other :: rest => yieldsNone rest

theorem procLines_yieldsNone (gen : Except GenError (List Char)) :
    ∀ lines : List SSE, yieldsNone lines = true →
      procLines gen lines 0 = (fallbackYield gen, 1)
  | [], _ => rfl
  | .doneMarker :: _, _ => rfl
  | .contentEv s :: rest, h => by
    by_cases hs : s = []
    · rw [show procLines gen (.contentEv s :: rest) 0 =
        (if s = [] then procLines gen rest 0 else
          ((procLines gen rest 1).1.cons s, (procLines gen rest 1).2)) from rfl,
        if_pos hs]
      refine procLines_yieldsNone gen rest ?_
      rw [yieldsNone, if_pos hs] at h
      exact h
    · rw [yieldsNone, if_neg hs] at h
      cases h
  | .other :: rest, h => procLines_yieldsNone gen rest h

theorem procLines_fallbacks_le (gen : Except GenError (List Char)) :
    ∀ (lines : List SSE) (chunks : Nat), (procLines gen lines chunks).2 ≤ 1
  | [], chunks => by
    by_cases h : chunks = 0 <;> simp [procLines, h]
  | .doneMarker :: rest, chunks => by
    by_cases h : chunks = 0 <;> simp [procLines, h]
  | .contentEv s :: rest, chunks => by
    by_cases hs : s = []
    · rw [show procLines gen (.contentEv s :: rest) chunks =
        (if s = [] then procLines gen rest chunks else
          ((procLines gen rest (chunks + 1)).1.cons s,
            (procLines gen rest (chunks + 1)).2)) from rfl, if_pos hs]
      exact procLines_fallbacks_le gen rest chunks
    · rw [show procLines gen (.contentEv s :: rest) chunks =
        (if s = [] then procLines gen rest chunks else
          ((procLines gen rest (chunks + 1)).1.cons s,
            (procLines gen rest (chunks + 1)).2)) from rfl, if_neg hs]
      exact procLines_fallbacks_le gen rest (chunks + 1)
  | .other :: rest, chunks => procLines_fallbacks_le gen rest chunks

theorem stream_generate_go_fallbacks_le (sched : Nat → AttemptOutcome)
    (gen : Except GenError (List Char)) :
    ∀ (fuel i : Nat) (lastErr : Option GenError),
      (stream_generate_go sched gen i fuel lastErr).fallbacks ≤ 1
  | 0, _, _ => Nat.zero_le 1
  | fuel + 1, i, lastErr => by
    show (match sched i with
      | .resp status lines =>
        if status = 429 then stream_generate_go sched gen (i + 1) fuel lastErr
        else if 400 ≤ status then ⟨[], some (.httpError status), 0⟩
        else ⟨(procLines gen lines 0).1, none, (procLines gen lines 0).2⟩
      | .exn e =>
        if isRateLimit e then stream_generate_go sched gen (i + 1) fuel (some e)
        else ⟨[], some e, 0⟩ : StreamOutcome).fallbacks ≤ 1
    cases hs : sched i with
    | resp status lines =>
      show (if status = 429 then stream_generate_go sched gen (i + 1) fuel lastErr
        else if 400 ≤ status then
          (⟨[], some (.httpError status), 0⟩ : StreamOutcome)
        else ⟨(procLines gen lines 0).1, none,
          (procLines gen lines 0).2⟩).fallbacks ≤ 1
      by_cases h429 : status = 429
      · rw [if_pos h429]
        exact stream_generate_go_fallbacks_le sched gen fuel (i + 1) lastErr
      · rw [if_neg h429]
        by_cases h400 : 400 ≤ status
        · rw [if_pos h400]
          exact Nat.zero_le 1
        · rw [if_neg h400]
          exact procLines_fallbacks_le gen lines 0
    | exn e =>
      show (if isRateLimit e = true then
          stream_generate_go sched gen (i + 1) fuel (some e)
        else (⟨[], some e, 0⟩ : StreamOutcome)).fallbacks ≤ 1
      by_cases hrl : isRateLimit e = true
      · rw [if_pos hrl]
        exact stream_generate_go_fallbacks_le sched gen fuel (i + 1) (some e)
      · rw [if_neg hrl]
        exact Nat.zero_le 1

/-- C5 (amended): per stream, the synchronous fallback runs at most once —
and exactly once on an attempt whose terminal condition (end marker or
connection close) is reached with zero fragments yielded, in which case the
attempt yields precisely `fallbackYield gen`: the fallback's result as one
fragment if it is non-empty, nothing if it is empty or the fallback itself
failed (its error is swallowed).  The fallback calls `generate`, never
`stream_generate`, so it cannot recurse. -/
theorem C5_fallback_at_most_once (sched : Nat → AttemptOutcome)
    (gen : Except GenError (List Char)) (max_retries : Nat)
    (lines : List SSE) (h : yieldsNone lines = true) :
    (stream_generate sched gen max_retries).fallbacks ≤ 1 ∧
    procLines gen lines 0 = (fallbackYield gen, 1) :=
  ⟨stream_generate_go_fallbacks_le sched gen max_retries 0 none,
   procLines_yieldsNone gen lines h⟩

/-- Witness for C5 at a concrete schedule: a stream that answers 200 with an
immediate `[DONE]`, fallback result `"G"`. -/
theorem C5_witness :
    (stream_generate (fun _ => .resp 200 [.doneMarker]) (.ok ['G']) 5).fallbacks ≤ 1 ∧
    procLines (.ok ['G']) [.doneMarker] 0 = (fallbackYield (.ok ['G']), 1) :=
  C5_fallback_at_most_once (fun _ => .resp 200 [.doneMarker]) (.ok ['G']) 5
    [.doneMarker] rfl

/-- C5 counterexample: the claim as stated says the fallback's result is
always yielded as a single fragment; but when the synchronous `generate`
returns the empty string the guard `if non_stream_response:` suppresses the
yield, so a zero-fragment stream whose fallback returns `""` yields nothing
at all (while the fallback did run once). -/
theorem C5_counterexample :
    (stream_generate (fun _ => .resp 200 [.doneMarker]) (.ok []) 5).fragments ≠
      [([] : List Char)] ∧
    (stream_generate (fun _ => .resp 200 [.doneMarker]) (.ok []) 5).fallbacks = 1 := by
  constructor
  · intro h
    cases h
  · rfl

/-! ## RetrievalEngine.format_context and RAGPipeline.query

`format_context` (retriever.py lines 92-117) returns the fixed sentinel
`"لا توجد معلومات متاحة."` on an empty result list; `RAGPipeline.query`
(rag_pipeline.py lines 125-168) compares the formatted context against
`"لا توجد معلومات ذات صلة."`.  Float formatting (the two-decimal score f-string) is an
external numeric routine and enters as the parameter `fmt2`. -/

/-- The sentinel returned by `format_context` on an empty result list
("no information available"). -/
def noInfoSentinel : List Char := "لا توجد معلومات متاحة.".toList

/-- The string `RAGPipeline.query` compares the context against
("no relevant information"). -/
def querySentinel : List Char := "لا توجد معلومات ذات صلة.".toList

/-- The canned fallback answer of `RAGPipeline.query`. -/
def insufficientInfoAnswer : List Char :=
  "عذراً، لم أجد معلومات كافية للإجابة على هذا السؤال في المراجع المتاحة.".toList

/-- Python `r.get(k, default)` for string values. -/
def dictGetStr (d : Dict) (k : String) (dflt : List Char) : List Char :=
  match dictGet d k with
  | some (.vStr s) => s
  | _ => dflt

/-- Python `r.get(k, default)` for numeric values. -/
def dictGetRat (d : Dict) (k : String) (dflt : ℚ) : ℚ :=
  match dictGet d k with
  | some (.vRat q) => q
  | _ => dflt

/-- Model of `RetrievalEngine.format_context`. -/
def format_context (nfkc : List Char → List Char) (fmt2 : ℚ → List Char)
    (results : List Dict) : List Char :=
  if results = [] then noInfoSentinel
  else
    List.intercalate ['\n'] (results.enum.map (fun p =>
      "[مصدر ".toList ++ (toString (p.1 + 1)).toList ++ ": ".toList ++
        dictGetStr p.2 "source" ("unknown".toList) ++
        " (درجة التشابه: ".toList ++ fmt2 (dictGetRat p.2 "score" 0) ++
        ")]\n".toList ++
        normalize_arabic_text nfkc (dictGetStr p.2 "text" []) ++ "\n".toList))

/-- One entry of the `sources` field of a query response:
a text, a score, and a metadata dict of all the other keys. -/
structure SourceEntry where
  text : List Char
  score : ℚ
  metadata : Dict
deriving DecidableEq

/-- The response dict built by `RAGPipeline.query`. -/
structure QueryResponse where
  question : List Char
  answer : List Char
  context : Option (List Char)
  sources : Option (List SourceEntry)
deriving DecidableEq

/-- Model of `RAGPipeline.query`.  `retrieved` is the result list the retriever
produced for the question (the embedding call is external); `llm` models
`answer_question` over the network.  The second component records whether
the generation client was invoked. -/
def query (nfkc : List Char → List Char) (fmt2 : ℚ → List Char)
    (retrieved : List Dict) (llm : List Char → List Char → List Char)
    (question : List Char) (return_context : Bool) : QueryResponse × Bool :=
  let context := format_context nfkc fmt2 retrieved
  let ai : List Char × Bool :=
    if context = [] ∨ context = querySentinel then (insufficientInfoAnswer, false)
    else (llm question context, true)
  let base : QueryResponse :=
    { question := question, answer := ai.1, context := none, sources := none }
  if return_context then
    ({ base with
        context := some context,
        sources := some (retrieved.map (fun r =>
          ⟨dictGetStr r "text" [], dictGetRat r "score" 0,
            r.filter (fun p => !(p.1 == "text" || p.1 == "score"))⟩)) }, ai.2)
  else (base, ai.2)

/-- C1 (code bug): `format_context` returns the sentinel
`"لا توجد معلومات متاحة."` on an empty result list, but `query` compares the
context against the *different* string `"لا توجد معلومات ذات صلة."`, so the
by-value short-circuit never fires: on a question whose retrieval yields no
results, `query` invokes the generation client (passing the sentinel as
context) and returns the model's output instead of the canned fallback. -/
theorem C1_sentinel_mismatch_invokes_generation :
    format_context id (fun _ => []) [] = noInfoSentinel ∧
    noInfoSentinel ≠ querySentinel ∧
    (query id (fun _ => []) [] (fun _ _ => ['G']) ['q'] false).2 = true ∧
    (query id (fun _ => []) [] (fun _ _ => ['G']) ['q'] false).1.answer = ['G'] ∧
    (query id (fun _ => []) [] (fun _ _ => ['G']) ['q'] false).1.answer ≠
      insufficientInfoAnswer := by
  refine ⟨rfl, by decide, rfl, rfl, by decide⟩

end ElBayan
